import Mathlib

attribute [local semireducible] Rat.add Rat.sub Rat.mul

/-!
Verification of scvelo neighbor-graph utilities (scvelo/tools/utils.py).

Shallow embedding of the algorithmic core of the repository:

* `geometric_matrix_sum` — recursive sum of matrix powers `C + C² + … + C^n`;
* `get_indices` — pruning of a sparse (CSR) distance matrix to a fixed
  number of nearest neighbors per row;
* `get_iterative_indices` — multi-hop closure of a fixed-width
  neighbor-index table with optional random capping;
* `groups_to_bool` — resolution of a grouping key against per-cell
  attribute tables with fallbacks.

Matrices are embedded over `ℚ` (exact arithmetic standing in for IEEE
floats; the epsilon book-keeping of `get_indices` is order-preserving and
exact over `ℚ`).  CSR matrices are embedded row-wise: a matrix is a list
of rows, each row the list of its stored entries `(column, value)` in
storage order; the flat `data` array of the CSR format is the
concatenation of the rows, and the source's segment boundaries
(cumulative counts of positive entries) coincide with the row boundaries
because stored distances are nonnegative — the theorems below carry that
nonnegativity hypothesis.  `np.argsort` is treated at two levels: the
executable pipeline `get_indices_D` instantiates it with a stable sort,
while statements whose truth depends on the order of tied values are made
against `get_indices_D_perm`, which takes each row's argsort outcome as a
parameter constrained only by numpy's documented guarantee (a permutation
of the positions along which the values are non-decreasing — the default
kind is not stable, so the tie order is unspecified).
`np.random.choice(A, m, replace=False)` is modelled by an explicit
argument listing the `m` distinct chosen positions, so theorems quantify
over every outcome of the random draw.
-/

namespace Scvelo

/-! ## geometric_matrix_sum (tools/utils.py, lines 161–166)

Source:
```
def geometric_matrix_sum(C, n_power=2):  # computes C + C^2 + C^3 + ...
    C_n = (
        geometric_matrix_sum(C, n_power - 1) if n_power > 2 else C if n_power > 1 else 0
    )
    return C + C.dot(C_n)
```
The three branches of the conditional expression (`n_power > 2`,
`n_power > 1`, otherwise) become the three cases below; `C.dot(0)` is the
zero matrix. -/

def geometric_matrix_sum {m : ℕ} (C : Matrix (Fin m) (Fin m) ℚ) : ℕ → Matrix (Fin m) (Fin m) ℚ
  | n + 3 => C + C * geometric_matrix_sum C (n + 2)
  | 2 => C + C * C
  | _ => C + C * 0

lemma gms_one {m : ℕ} (C : Matrix (Fin m) (Fin m) ℚ) : geometric_matrix_sum C 1 = C := by
  show C + C * 0 = C
  rw [mul_zero, add_zero]

/-- The recursion the source implements: for every power above 1 the sum
equals `C + C * (sum at the previous power)`. -/
lemma gms_rec {m : ℕ} (C : Matrix (Fin m) (Fin m) ℚ) (p : ℕ) (hp : 1 < p) :
    geometric_matrix_sum C p = C + C * geometric_matrix_sum C (p - 1) := by
  match p, hp with
  | 2, _ => show C + C * C = C + C * geometric_matrix_sum C 1; rw [gms_one]
  | (n + 3), _ => rfl

/-- Closed form: the recursion computes the sum of the first `p` powers of `C`
(indexed so that term `j` of the range is `C ^ (j + 1)`). -/
lemma gms_eq_sum {m : ℕ} (C : Matrix (Fin m) (Fin m) ℚ) :
    ∀ p : ℕ, 1 ≤ p → geometric_matrix_sum C p = ∑ j ∈ Finset.range p, C ^ (j + 1) := by
  intro p
  induction p using Nat.strong_induction_on with
  | _ p ih =>
    intro hp
    match p, hp with
    | 1, _ =>
      rw [Finset.sum_range_one, pow_one, gms_one]
    | (q + 2), _ =>
      have h1q : 1 ≤ q + 1 := Nat.le_add_left 1 q
      have hrec : geometric_matrix_sum C (q + 2) =
          C + C * geometric_matrix_sum C (q + 1) := by
        have := gms_rec C (q + 2) (by omega)
        simpa using this
      rw [hrec, ih (q + 1) (by omega) h1q, Finset.sum_range_succ' (fun j => C ^ (j + 1)) (q + 1)]
      rw [Finset.mul_sum]
      have hterm : ∀ j, C * C ^ (j + 1) = C ^ (j + 1 + 1) := by
        intro j; rw [pow_succ' C (j + 1)]
      rw [Finset.sum_congr rfl (fun j _ => hterm j), pow_one, add_comm (∑ j ∈ Finset.range (q + 1), C ^ (j + 1 + 1)) C]

lemma gms_eq_sum_Icc {m : ℕ} (C : Matrix (Fin m) (Fin m) ℚ) (p : ℕ) (hp : 1 ≤ p) :
    geometric_matrix_sum C p = ∑ i ∈ Finset.Icc 1 p, C ^ i := by
  rw [gms_eq_sum C p hp]
  have himg : Finset.Icc 1 p = Finset.image (fun j => j + 1) (Finset.range p) := by
    ext x
    simp only [Finset.mem_Icc, Finset.mem_image, Finset.mem_range]
    constructor
    · rintro ⟨h1, h2⟩; exact ⟨x - 1, by omega, by omega⟩
    · rintro ⟨j, hj, rfl⟩; omega
  rw [himg, Finset.sum_image (by intro a _ b _ h; omega)]

/-- C1: for every square matrix `C` and every `n_power ≥ 1`,
`geometric_matrix_sum C n_power` is the sum of matrix powers
`C + C² + … + C^n_power`; in particular it returns `C` at power 1, and for
`n_power > 1` it equals `C` plus `C` times the sum at the previous power. -/
theorem geometric_matrix_sum_correct {m : ℕ} (C : Matrix (Fin m) (Fin m) ℚ)
    (n_power : ℕ) (hp : 1 ≤ n_power) :
    geometric_matrix_sum C n_power = ∑ i ∈ Finset.Icc 1 n_power, C ^ i ∧
    geometric_matrix_sum C 1 = C ∧
    (1 < n_power →
      geometric_matrix_sum C n_power = C + C * geometric_matrix_sum C (n_power - 1)) :=
  ⟨gms_eq_sum_Icc C n_power hp, gms_one C, fun h => gms_rec C n_power h⟩

/-- Witness for C1 at the concrete input `C = [[2]]`, `n_power = 3`. -/
theorem geometric_matrix_sum_correct_witness :
    geometric_matrix_sum !![(2 : ℚ)] 3 = ∑ i ∈ Finset.Icc 1 3, !![(2 : ℚ)] ^ i ∧
    geometric_matrix_sum !![(2 : ℚ)] 1 = !![(2 : ℚ)] ∧
    geometric_matrix_sum !![(2 : ℚ)] 3 =
      !![(2 : ℚ)] + !![(2 : ℚ)] * geometric_matrix_sum !![(2 : ℚ)] (3 - 1) :=
  ⟨(geometric_matrix_sum_correct !![(2 : ℚ)] 3 (by decide)).1,
   (geometric_matrix_sum_correct !![(2 : ℚ)] 3 (by decide)).2.1,
   (geometric_matrix_sum_correct !![(2 : ℚ)] 3 (by decide)).2.2 (by decide)⟩

/-- C2 fails on the code: the claimed recurrence
`gms(C, n) = gms(C, n-1) + C·gms(C, n-1)` double-counts every
intermediate power.  Concretely with the 1×1 matrix `[[2]]` and `n = 3`
the code returns `2 + 4 + 8 = 14` while the claimed right-hand side is
`6 + 2·6 = 18`. -/
theorem geometric_matrix_sum_claimed_recurrence_false :
    ¬ (geometric_matrix_sum !![(2 : ℚ)] 3 =
        geometric_matrix_sum !![(2 : ℚ)] 2 + !![(2 : ℚ)] * geometric_matrix_sum !![(2 : ℚ)] 2) := by
  intro h
  have h00 := congrFun (congrFun h 0) 0
  simp [geometric_matrix_sum, Matrix.mul_apply, Matrix.add_apply, Fin.sum_univ_one] at h00

/-- C2 amended: the recurrence the code actually satisfies is
`gms(C, n) = C + C·gms(C, n-1)` for `n > 1`, elementwise. -/
theorem geometric_matrix_sum_recurrence {m : ℕ} (C : Matrix (Fin m) (Fin m) ℚ)
    (n : ℕ) (hn : 1 < n) :
    geometric_matrix_sum C n = C + C * geometric_matrix_sum C (n - 1) :=
  gms_rec C n hn

/-- Witness for the amended C2 at `C = [[2]]`, `n = 3`. -/
theorem geometric_matrix_sum_recurrence_witness :
    geometric_matrix_sum !![(2 : ℚ)] 3 =
      !![(2 : ℚ)] + !![(2 : ℚ)] * geometric_matrix_sum !![(2 : ℚ)] (3 - 1) :=
  geometric_matrix_sum_recurrence !![(2 : ℚ)] 3 (by norm_num)

/-! ## get_iterative_indices (tools/utils.py, lines 138–157)

Source:
```
def get_iterative_indices(indices, index, n_recurse_neighbors=2, max_neighs=None):
    def iterate_indices(indices, index, n_recurse_neighbors):
        if n_recurse_neighbors > 1:
            index = iterate_indices(indices, index, n_recurse_neighbors - 1)
        ix = np.append(index, indices[index])  # direct and indirect neighbors
        if np.isnan(ix).any():
            ix = ix[~np.isnan(ix)]
        return ix.astype(int)

    indices = np.unique(iterate_indices(indices, index, n_recurse_neighbors))
    if max_neighs is not None and len(indices) > max_neighs:
        indices = np.random.choice(indices, max_neighs, replace=False)
    return indices
```
The neighbor table is a list of fixed-width rows whose entries are
`Option ℕ` (`none` is the NaN sentinel).  `np.append(index, indices[index])`
flattens the gathered rows behind the current index list, and the NaN
filter removes the sentinels (the `index` prefix consists of integers and
is unaffected). -/

/-- One expansion step: current indices followed by all their direct
neighbors, sentinels removed. -/
def iter_step (T : List (List (Option ℕ))) (index : List ℕ) : List ℕ :=
  index ++ (index.flatMap (fun i => T.getD i [])).filterMap id

/-- The inner recursion of `get_iterative_indices`: recurse while
`n_recurse_neighbors > 1`, then expand once. -/
def iterate_indices (T : List (List (Option ℕ))) (index : List ℕ) : ℕ → List ℕ
  | n + 2 => iter_step T (iterate_indices T index (n + 1))
  | _ => iter_step T index

/-- Model of `np.unique`: sorted list of the distinct values. -/
def npUnique (l : List ℕ) : List ℕ := List.insertionSort (· ≤ ·) l.dedup

/-- The function `get_iterative_indices`.  The random draw of
`np.random.choice(indices, max_neighs, replace=False)` is modelled by the
extra argument `sel`, the list of positions the draw picked; a theorem
quantifying over every valid `sel` covers every outcome of the random
selection. -/
def get_iterative_indices (T : List (List (Option ℕ))) (index : ℕ)
    (n_recurse_neighbors : ℕ) (max_neighs : Option ℕ) (sel : List ℕ) : List ℕ :=
  let idx := npUnique (iterate_indices T [index] n_recurse_neighbors)
  match max_neighs with
  | some m => if m < idx.length then sel.map (fun p => idx.getD p 0) else idx
  | none => idx

lemma mem_npUnique {l : List ℕ} {x : ℕ} : x ∈ npUnique l ↔ x ∈ l := by
  unfold npUnique
  rw [(List.perm_insertionSort (· ≤ ·) l.dedup).mem_iff, List.mem_dedup]

lemma npUnique_nodup (l : List ℕ) : (npUnique l).Nodup :=
  ((List.perm_insertionSort (· ≤ ·) l.dedup).nodup_iff).mpr (List.nodup_dedup l)

lemma npUnique_sorted (l : List ℕ) : (npUnique l).Sorted (· ≤ ·) := by
  haveI : IsTotal ℕ (· ≤ ·) := ⟨fun a b => Nat.le_total a b⟩
  haveI : IsTrans ℕ (· ≤ ·) := ⟨fun _ _ _ => Nat.le_trans⟩
  exact List.sorted_insertionSort (· ≤ ·) l.dedup

lemma index_subset_iter_step (T : List (List (Option ℕ))) (index : List ℕ) :
    ∀ x ∈ index, x ∈ iter_step T index := by
  intro x hx
  exact List.mem_append_left _ hx

lemma index_subset_iterate (T : List (List (Option ℕ))) (index : List ℕ) :
    ∀ n, ∀ x ∈ index, x ∈ iterate_indices T index n := by
  intro n
  induction n with
  | zero => exact index_subset_iter_step T index
  | succ k ih =>
    match k with
    | 0 => exact index_subset_iter_step T index
    | k + 1 =>
      intro x hx
      exact index_subset_iter_step T _ x (ih x hx)

/-- C9: the uncapped result is strictly sorted (hence duplicate-free) and
always contains the seed index. -/
theorem get_iterative_indices_sorted_nodup_seed (T : List (List (Option ℕ)))
    (index : ℕ) (n : ℕ) :
    (get_iterative_indices T index n none []).Sorted (· < ·) ∧
    (get_iterative_indices T index n none []).Nodup ∧
    index ∈ get_iterative_indices T index n none [] := by
  have hn : (npUnique (iterate_indices T [index] n)).Nodup :=
    npUnique_nodup _
  have hs : (npUnique (iterate_indices T [index] n)).Sorted (· ≤ ·) :=
    npUnique_sorted _
  refine ⟨?_, hn, ?_⟩
  · exact (hs.and hn).imp (fun h => lt_of_le_of_ne h.1 h.2)
  · exact mem_npUnique.mpr (index_subset_iterate T [index] n index (List.mem_singleton.mpr rfl))

/-- C5 as stated is false: at depth 1 the returned set also contains the
seed itself, not only the seed's direct neighbors.  With the one-row table
`[[some 1]]` and seed 0, the result is `[0, 1]` but the seed's direct
neighbor set (sentinels removed) is `[1]`: the seed 0 is returned without
being a direct neighbor. -/
theorem get_iterative_indices_depth_one_not_only_neighbors :
    ¬ (∀ x, x ∈ get_iterative_indices [[some 1]] 0 1 none [] ↔
        x ∈ (([some 1] : List (Option ℕ)).filterMap id)) :=
  fun h => absurd ((h 0).mp (by decide)) (by decide)

/-- C5 amended: at depth 1 with no cap the result is exactly the seed
together with the seed's direct neighbors (sentinels removed), as a set. -/
theorem get_iterative_indices_depth_one (T : List (List (Option ℕ))) (index : ℕ) :
    ∀ x, x ∈ get_iterative_indices T index 1 none [] ↔
      x = index ∨ x ∈ (T.getD index []).filterMap id := by
  intro x
  unfold get_iterative_indices
  rw [mem_npUnique]
  show x ∈ iter_step T [index] ↔ _
  unfold iter_step
  simp [List.mem_singleton]

/-- C4: for depth `d > 1` the uncapped closure at depth `d` contains the
uncapped closure at depth `d - 1`. -/
theorem get_iterative_indices_monotone (T : List (List (Option ℕ)))
    (index : ℕ) (d : ℕ) (hd : 1 < d) :
    ∀ x ∈ get_iterative_indices T index (d - 1) none [],
      x ∈ get_iterative_indices T index d none [] := by
  intro x hx
  rw [get_iterative_indices, mem_npUnique] at hx ⊢
  match d, hd with
  | (k + 2), _ =>
    show x ∈ iter_step T (iterate_indices T [index] (k + 1))
    have hstep : iterate_indices T [index] (k + 2 - 1) = iterate_indices T [index] (k + 1) := rfl
    rw [hstep] at hx
    exact index_subset_iter_step T _ x hx

/-- Witness for C4 with the spec's example table, seed 0, depth 2: cell 1
lies in the depth-1 closure and hence also in the depth-2 closure. -/
theorem get_iterative_indices_monotone_witness :
    (1 : ℕ) ∈ get_iterative_indices
      [[some 1, some 2], [some 0, some 2], [some 0, some 1]] 0 2 none [] :=
  get_iterative_indices_monotone [[some 1, some 2], [some 0, some 2], [some 0, some 1]]
    0 2 (by decide) 1 (by decide)

/-- C6: whenever the cap is smaller than the uncapped closure, every
outcome of the without-replacement draw (any list `sel` of `max_neighs`
distinct valid positions) yields exactly `max_neighs` pairwise-distinct
indices, all belonging to the uncapped closure. -/
theorem get_iterative_indices_cap (T : List (List (Option ℕ)))
    (index n m : ℕ) (sel : List ℕ)
    (hlt : m < (get_iterative_indices T index n none []).length)
    (hsel_len : sel.length = m)
    (hsel_nodup : sel.Nodup)
    (hsel_lt : ∀ p ∈ sel, p < (get_iterative_indices T index n none []).length) :
    (get_iterative_indices T index n (some m) sel).length = m ∧
    (get_iterative_indices T index n (some m) sel).Nodup ∧
    ∀ x ∈ get_iterative_indices T index n (some m) sel,
      x ∈ get_iterative_indices T index n none [] := by
  have huncap : get_iterative_indices T index n none [] =
      npUnique (iterate_indices T [index] n) := rfl
  have hnodup : (npUnique (iterate_indices T [index] n)).Nodup := npUnique_nodup _
  rw [huncap] at hlt hsel_lt
  have hcap : get_iterative_indices T index n (some m) sel =
      sel.map (fun p => (npUnique (iterate_indices T [index] n)).getD p 0) := by
    unfold get_iterative_indices
    simp only [if_pos hlt]
  rw [hcap, huncap]
  refine ⟨by rw [List.length_map, hsel_len], ?_, ?_⟩
  · refine List.Nodup.map_on ?_ hsel_nodup
    intro p hp q hq hpq
    have hp' := hsel_lt p hp
    have hq' := hsel_lt q hq
    rw [List.getD_eq_get _ _ hp', List.getD_eq_get _ _ hq'] at hpq
    have := (List.nodup_iff_injective_get.mp hnodup) hpq
    exact congrArg Fin.val this
  · intro x hx
    rw [List.mem_map] at hx
    obtain ⟨p, hp, rfl⟩ := hx
    rw [List.getD_eq_get _ _ (hsel_lt p hp)]
    exact List.get_mem _ p (hsel_lt p hp)

/-- Witness for C6: spec's 3-cell table, seed 0, depth 2, cap 2,
draw picking positions 0 and 2 of the closure `[0, 1, 2]`; the drawn set
has size 2, no duplicates, and its element 0 is in the uncapped closure. -/
theorem get_iterative_indices_cap_witness :
    (get_iterative_indices [[some 1, some 2], [some 0, some 2], [some 0, some 1]] 0 2 (some 2) [0, 2]).length = 2 ∧
    (get_iterative_indices [[some 1, some 2], [some 0, some 2], [some 0, some 1]] 0 2 (some 2) [0, 2]).Nodup ∧
    (0 : ℕ) ∈ get_iterative_indices [[some 1, some 2], [some 0, some 2], [some 0, some 1]] 0 2 none [] :=
  ⟨(get_iterative_indices_cap [[some 1, some 2], [some 0, some 2], [some 0, some 1]] 0 2 2 [0, 2]
      (by decide) (by decide) (by decide) (by decide)).1,
   (get_iterative_indices_cap [[some 1, some 2], [some 0, some 2], [some 0, some 1]] 0 2 2 [0, 2]
      (by decide) (by decide) (by decide) (by decide)).2.1,
   (get_iterative_indices_cap [[some 1, some 2], [some 0, some 2], [some 0, some 1]] 0 2 2 [0, 2]
      (by decide) (by decide) (by decide) (by decide)).2.2 0 (by decide)⟩

/-! ## groups_to_bool (tools/utils.py, lines 170–187)

Source:
```
def groups_to_bool(adata, groups, groupby=None):
    groups = [groups] if isinstance(groups, str) else groups
    if isinstance(groups, (list, tuple, np.ndarray, np.record)):
        groupby = (
            groupby
            if groupby in adata.obs.keys()
            else "clusters" if "clusters" in adata.obs.keys()
            else "louvain" if "louvain" in adata.obs.keys()
            else None
        )
        if groupby is not None:
            groups = np.array([key in groups for key in adata.obs[groupby]])
        else:
            raise ValueError("groupby attribute not valid.")
    return groups
```
The container is modelled by its per-cell attribute table `obs`: an
association list from attribute names to the per-cell value columns.
`groups` is taken as a list of group names (the claim's case), so the
isinstance guard is satisfied.  A `groupby` of Python `None` is never a
member of `adata.obs.keys()`, hence falls through to the fallbacks. -/

structure AData where
  obs : List (String × List String)

def obsKeys (adata : AData) : List String := adata.obs.map Prod.fst

def obsCol (adata : AData) (key : String) : List String :=
  ((adata.obs.find? (fun p => p.1 == key)).map Prod.snd).getD []

/-- Python's membership test `groupby in adata.obs.keys()` for a possibly
absent (`None`) key. -/
def optInKeys (adata : AData) : Option String → Prop
  | some g => g ∈ obsKeys adata
  | none => False

instance (adata : AData) (o : Option String) : Decidable (optInKeys adata o) := by
  cases o <;> simp only [optInKeys] <;> infer_instance

def groups_to_bool (adata : AData) (groups : List String) (groupby : Option String) :
    Except String (List Bool) :=
  let resolved : Option String :=
    if optInKeys adata groupby then groupby
    else if "clusters" ∈ obsKeys adata then some "clusters"
    else if "louvain" ∈ obsKeys adata then some "louvain"
    else none
  match resolved with
  | some g => Except.ok ((obsCol adata g).map (fun key => decide (key ∈ groups)))
  | none => Except.error "groupby attribute not valid."

/-- C8: `groups_to_bool` errors exactly when the caller's key is not a
per-cell attribute and neither fallback key exists; otherwise it returns
the per-cell membership mask of the resolved attribute, resolution
preferring the caller's key, then "clusters", then "louvain". -/
theorem groups_to_bool_spec (adata : AData) (groups : List String)
    (groupby : Option String) (_hne : groups ≠ []) :
    ((∃ e, groups_to_bool adata groups groupby = Except.error e) ↔
      ((∀ g, groupby = some g → g ∉ obsKeys adata) ∧
        "clusters" ∉ obsKeys adata ∧ "louvain" ∉ obsKeys adata)) ∧
    (∀ g, groupby = some g → g ∈ obsKeys adata →
      groups_to_bool adata groups groupby =
        Except.ok ((obsCol adata g).map (fun key => decide (key ∈ groups)))) ∧
    ((∀ g, groupby = some g → g ∉ obsKeys adata) → "clusters" ∈ obsKeys adata →
      groups_to_bool adata groups groupby =
        Except.ok ((obsCol adata "clusters").map (fun key => decide (key ∈ groups)))) ∧
    ((∀ g, groupby = some g → g ∉ obsKeys adata) → "clusters" ∉ obsKeys adata →
      "louvain" ∈ obsKeys adata →
      groups_to_bool adata groups groupby =
        Except.ok ((obsCol adata "louvain").map (fun key => decide (key ∈ groups)))) := by
  have hnotin : ¬ optInKeys adata groupby ↔
      ∀ g, groupby = some g → g ∉ obsKeys adata := by
    cases groupby <;> simp [optInKeys]
  unfold groups_to_bool
  refine ⟨?_, ?_, ?_, ?_⟩
  · constructor
    · intro ⟨e, he⟩
      by_cases h1 : optInKeys adata groupby
      · rw [if_pos h1] at he
        cases groupby with
        | none => exact absurd h1 (by simp [optInKeys])
        | some g => simp at he
      · rw [if_neg h1] at he
        by_cases h2 : "clusters" ∈ obsKeys adata
        · rw [if_pos h2] at he; simp at he
        · rw [if_neg h2] at he
          by_cases h3 : "louvain" ∈ obsKeys adata
          · rw [if_pos h3] at he; simp at he
          · exact ⟨hnotin.mp h1, h2, h3⟩
    · rintro ⟨h1, h2, h3⟩
      rw [if_neg (hnotin.mpr h1), if_neg h2, if_neg h3]
      exact ⟨"groupby attribute not valid.", rfl⟩
  · intro g hg hgk
    subst hg
    rw [if_pos (show optInKeys adata (some g) from hgk)]
  · intro h1 h2
    rw [if_neg (hnotin.mpr h1), if_pos h2]
  · intro h1 h2 h3
    rw [if_neg (hnotin.mpr h1), if_neg h2, if_pos h3]

/-- Witness for C8: a container whose only per-cell attribute is
"clusters" with values ["A", "B"]; no caller key, so the "clusters"
fallback resolves and cells are masked by membership of their cluster in
["A"]. -/
theorem groups_to_bool_spec_witness :
    groups_to_bool ⟨[("clusters", ["A", "B"])]⟩ ["A"] none = Except.ok [true, false] := by
  have h := (groups_to_bool_spec ⟨[("clusters", ["A", "B"])]⟩ ["A"] none (by decide)).2.2.1
    (fun g hg => by cases hg) (by decide)
  exact h

/-! ## get_indices (tools/utils.py, lines 92–123)

Source (the part producing the pruned matrix `D`; the `indices` output and
the "connectivities" mode call external collaborators and are not needed
by the claims):
```
D = dist.copy()
D.data += 1e-6
n_counts = sum(D > 0, axis=1)
n_neighbors = (
    n_counts.min() if n_neighbors is None else min(n_counts.min(), n_neighbors)
)
rows = np.where(n_counts > n_neighbors)[0]
cumsum_neighs = np.insert(n_counts.cumsum(), 0, 0)
dat = D.data

for row in rows:
    n0, n1 = cumsum_neighs[row], cumsum_neighs[row + 1]
    rm_idx = n0 + dat[n0:n1].argsort()[n_neighbors:]
    dat[rm_idx] = 0
D.eliminate_zeros()

D.data -= 1e-6
```
A CSR matrix is a list of rows of stored `(column, value)` entries; the
flat `dat` array is their concatenation, and the segment
`dat[cumsum_neighs[row] : cumsum_neighs[row+1]]` is exactly row `row`
whenever all stored values are positive after the epsilon shift (the
nonnegative-distance hypothesis of the theorems), so the per-row loop is
embedded per row. -/

/-- A stored CSR entry: column index and value. -/
abbrev SRow := List (ℕ × ℚ)

abbrev SMat := List SRow

/-- The epsilon `1e-6` the source adds to all stored distances
(`mkRat 1 1000000 = 1/1000000`). -/
def eps : ℚ := mkRat 1 1000000

lemma eps_pos : 0 < eps := by decide

/-- Comparison used to model `np.argsort` as a stable sort of positions:
by value, ties by position. -/
def lexLe (vals : List ℚ) (p q : ℕ) : Prop :=
  vals.getD p 0 < vals.getD q 0 ∨ (vals.getD p 0 = vals.getD q 0 ∧ p ≤ q)

instance (vals : List ℚ) : DecidableRel (lexLe vals) := fun p q => by
  unfold lexLe; infer_instance

/-- Model of `np.argsort` on a data segment as one concrete admissible
outcome: the positions `0, …, len-1` stably sorted by value.  numpy's
default sort guarantees only some value-sorting permutation (its tie
order is unspecified); statements that depend on the tie order are made
against `IsSortPerm`/`get_indices_D_perm` below instead of this
instance. -/
def argsort (vals : List ℚ) : List ℕ :=
  List.insertionSort (lexLe vals) (List.range vals.length)

/-- The loop body `dat[rm_idx] = 0` for one row: positions after the first
`m` of the argsort are zeroed. -/
def pruneRow (m : ℕ) (row : SRow) : SRow :=
  row.mapIdx (fun j p => if j ∈ (argsort (row.map Prod.snd)).take m then p else (p.1, 0))

/-- Step `D.data += 1e-6` (per row). -/
def epsRow (row : SRow) : SRow := row.map (fun p => (p.1, p.2 + eps))

/-- Step `D.data += 1e-6`. -/
def addEps (D : SMat) : SMat := D.map epsRow

/-- Step `n_counts = sum(D > 0, axis=1)`: stored entries with positive value,
per row. -/
def nCounts (D : SMat) : List ℕ :=
  D.map (fun r => (r.filter (fun p => decide (0 < p.2))).length)

/-- The pruning loop over `rows = np.where(n_counts > n_neighbors)[0]`. -/
def pruneAll (D : SMat) (m : ℕ) : SMat :=
  List.zipWith (fun r c => if m < c then pruneRow m r else r) D (nCounts D)

/-- Step `D.eliminate_zeros()`: drop stored entries whose value is zero. -/
def elimZeros (D : SMat) : SMat :=
  D.map (fun r => r.filter (fun p => decide (¬ p.2 = 0)))

/-- Step `D.data -= 1e-6`. -/
def subEps (D : SMat) : SMat := D.map (fun r => r.map (fun p => (p.1, p.2 - eps)))

/-- The pruned matrix `D` returned by `get_indices` (second component of
its return value).  `none` models the ValueError numpy raises for
`n_counts.min()` on a matrix with no rows. -/
def get_indices_D (dist : SMat) (n_neighbors : Option ℕ) : Option SMat :=
  let D := addEps dist
  match (nCounts D).min? with
  | none => none
  | some cmin =>
    let m := match n_neighbors with
      | none => cmin
      | some k => min cmin k
    some (subEps (elimZeros (pruneAll D m)))

/-! ### Ranking — the specification side of "the k smallest distances of
the row, ties broken in favor of earlier storage order" -/

/-- Entry `q` strictly precedes entry `p`: smaller value, or equal value
at an earlier storage position. -/
def rankLt (vals : List ℚ) (q p : ℕ) : Prop :=
  vals.getD q 0 < vals.getD p 0 ∨ (vals.getD q 0 = vals.getD p 0 ∧ q < p)

instance (vals : List ℚ) (q p : ℕ) : Decidable (rankLt vals q p) := by
  unfold rankLt; infer_instance

/-- How many entries strictly precede entry `p`; entry `p` is among the
`k` smallest (ties to earlier storage positions) iff `rankAt vals p < k`. -/
def rankAt (vals : List ℚ) (p : ℕ) : ℕ :=
  ((List.range vals.length).filter (fun q => decide (rankLt vals q p))).length

/-- The entries of a row at the storage positions selected by `keep`, in
storage order. -/
def filterIdx (row : SRow) (keep : ℕ → Bool) : SRow :=
  (row.enum.filter (fun jp => keep jp.1)).map Prod.snd

lemma lexLe_total (vals : List ℚ) (p q : ℕ) : lexLe vals p q ∨ lexLe vals q p := by
  unfold lexLe
  rcases lt_trichotomy (vals.getD p 0) (vals.getD q 0) with h | h | h
  · exact Or.inl (Or.inl h)
  · rcases Nat.le_total p q with hpq | hpq
    · exact Or.inl (Or.inr ⟨h, hpq⟩)
    · exact Or.inr (Or.inr ⟨h.symm, hpq⟩)
  · exact Or.inr (Or.inl h)

lemma lexLe_trans (vals : List ℚ) {p q r : ℕ}
    (h1 : lexLe vals p q) (h2 : lexLe vals q r) : lexLe vals p r := by
  unfold lexLe at *
  rcases h1 with h1 | ⟨h1, h1'⟩ <;> rcases h2 with h2 | ⟨h2, h2'⟩
  · exact Or.inl (h1.trans h2)
  · exact Or.inl (h2 ▸ h1)
  · exact Or.inl (h1 ▸ h2)
  · exact Or.inr ⟨h1.trans h2, h1'.trans h2'⟩

lemma lexLe_antisymm (vals : List ℚ) {p q : ℕ}
    (h1 : lexLe vals p q) (h2 : lexLe vals q p) : p = q := by
  rcases h1 with h1 | ⟨h1, h1'⟩ <;> rcases h2 with h2 | ⟨h2, h2'⟩
  · exact absurd (h1.trans h2) (lt_irrefl _)
  · exact absurd h1 (h2 ▸ lt_irrefl _)
  · exact absurd h2 (h1 ▸ lt_irrefl _)
  · exact Nat.le_antisymm h1' h2'

lemma rankLt_iff (vals : List ℚ) (q p : ℕ) :
    rankLt vals q p ↔ lexLe vals q p ∧ q ≠ p := by
  unfold rankLt lexLe
  constructor
  · rintro (h | ⟨h, h'⟩)
    · exact ⟨Or.inl h, fun hqp => absurd h (hqp ▸ lt_irrefl _)⟩
    · exact ⟨Or.inr ⟨h, Nat.le_of_lt h'⟩, Nat.ne_of_lt h'⟩
  · rintro ⟨h | ⟨h, h'⟩, hne⟩
    · exact Or.inl h
    · exact Or.inr ⟨h, Nat.lt_of_le_of_ne h' hne⟩

lemma rankLt_irrefl (vals : List ℚ) (p : ℕ) : ¬ rankLt vals p p := by
  intro h
  exact ((rankLt_iff vals p p).mp h).2 rfl

lemma argsort_perm (vals : List ℚ) :
    (argsort vals).Perm (List.range vals.length) :=
  List.perm_insertionSort _ _

lemma argsort_length (vals : List ℚ) : (argsort vals).length = vals.length := by
  rw [(argsort_perm vals).length_eq, List.length_range]

lemma argsort_nodup (vals : List ℚ) : (argsort vals).Nodup :=
  ((argsort_perm vals).nodup_iff).mpr (List.nodup_range _)

lemma mem_argsort (vals : List ℚ) (p : ℕ) :
    p ∈ argsort vals ↔ p < vals.length := by
  rw [(argsort_perm vals).mem_iff, List.mem_range]

lemma argsort_sorted (vals : List ℚ) : (argsort vals).Sorted (lexLe vals) := by
  haveI : IsTotal ℕ (lexLe vals) := ⟨lexLe_total vals⟩
  haveI : IsTrans ℕ (lexLe vals) := ⟨fun _ _ _ => lexLe_trans vals⟩
  exact List.sorted_insertionSort _ _

/-- The element at index `i` of the stable argsort has exactly `i` strict
predecessors: index in the sorted order = rank. -/
lemma argsort_get_rank (vals : List ℚ) (i : ℕ) (hi : i < (argsort vals).length) :
    rankAt vals ((argsort vals).get ⟨i, hi⟩) = i := by
  set L := argsort vals with hL
  set p := L.get ⟨i, hi⟩ with hp
  have hcount : rankAt vals p =
      List.countP (fun q => decide (rankLt vals q p)) L := by
    rw [rankAt, ← List.countP_eq_length_filter,
      (argsort_perm vals).countP_eq (fun q => decide (rankLt vals q p))]
  have hsplit : L.take i ++ L.drop i = L := List.take_append_drop i L
  have htake : List.countP (fun q => decide (rankLt vals q p)) (L.take i) =
      (L.take i).length := by
    rw [List.countP_eq_length]
    intro a ha
    obtain ⟨j, hj, hja⟩ := List.mem_take_iff_getElem.mp ha
    have hjlt : j < i := lt_of_lt_of_le hj (min_le_left _ _)
    have hjL : j < L.length := lt_of_lt_of_le hj (min_le_right _ _)
    have hle : lexLe vals (L.get ⟨j, hjL⟩) (L.get ⟨i, hi⟩) :=
      (argsort_sorted vals).rel_get_of_lt (by exact hjlt)
    have hne : L.get ⟨j, hjL⟩ ≠ L.get ⟨i, hi⟩ := by
      intro h
      have := List.nodup_iff_injective_get.mp (argsort_nodup vals) h
      exact absurd (Fin.val_eq_val _ _ |>.mpr this) (Nat.ne_of_lt hjlt)
    have : rankLt vals (L.get ⟨j, hjL⟩) p := (rankLt_iff vals _ _).mpr ⟨hle, hne⟩
    have hgj : L.get ⟨j, hjL⟩ = a := by
      simpa using hja
    rw [hgj] at this
    exact decide_eq_true this
  have hdrop : List.countP (fun q => decide (rankLt vals q p)) (L.drop i) = 0 := by
    rw [List.countP_eq_zero]
    intro a ha
    obtain ⟨⟨j, hj⟩, hja⟩ := List.get_of_mem ha
    have hijL : i + j < L.length := by
      have := hj
      rw [List.length_drop] at this
      omega
    have hga : L.get ⟨i + j, hijL⟩ = a := by
      rw [List.get_drop L hijL]
      exact hja
    intro hpred
    have hrank : rankLt vals a p := of_decide_eq_true hpred
    have hle : lexLe vals p a := by
      rcases Nat.eq_or_lt_of_le (Nat.le_add_right i j) with hij | hij
      · have : p = a := by rw [hp, ← hga]; congr 1; exact Fin.ext hij
        exact this ▸ Or.inr ⟨rfl, le_refl _⟩
      · have := (argsort_sorted vals).rel_get_of_lt
          (show (⟨i, hi⟩ : Fin L.length) < ⟨i + j, hijL⟩ from hij)
        rw [hga] at this
        exact this
    obtain ⟨hle', hne⟩ := (rankLt_iff vals a p).mp hrank
    exact hne (lexLe_antisymm vals hle' hle)
  have hlen : (L.take i).length = i := by
    rw [List.length_take]
    exact min_eq_left (Nat.le_of_lt hi)
  calc rankAt vals p
      = List.countP (fun q => decide (rankLt vals q p)) L := hcount
    _ = List.countP (fun q => decide (rankLt vals q p)) (L.take i ++ L.drop i) := by
        rw [hsplit]
    _ = i := by rw [List.countP_append, htake, hdrop, hlen, Nat.add_zero]

/-- Membership in the first `k` positions of the stable argsort is exactly
"rank below `k`". -/
lemma mem_take_argsort (vals : List ℚ) (k p : ℕ) :
    p ∈ (argsort vals).take k ↔ p < vals.length ∧ rankAt vals p < k := by
  constructor
  · intro h
    obtain ⟨j, hj, hjp⟩ := List.mem_take_iff_getElem.mp h
    have hjL : j < (argsort vals).length := lt_of_lt_of_le hj (min_le_right _ _)
    have hplen : p < vals.length := by
      rw [← mem_argsort vals p]
      exact List.mem_of_mem_take h
    have : rankAt vals p = j := by
      rw [← hjp]
      exact argsort_get_rank vals j hjL
    exact ⟨hplen, this ▸ lt_of_lt_of_le hj (min_le_left _ _)⟩
  · rintro ⟨hplen, hrk⟩
    have hpL : p ∈ argsort vals := (mem_argsort vals p).mpr hplen
    obtain ⟨⟨i, hiL⟩, hip⟩ := List.get_of_mem hpL
    have hri : rankAt vals p = i := by
      rw [← hip]; exact argsort_get_rank vals i hiL
    refine List.mem_take_iff_getElem.mpr ⟨i, ?_, by simpa using hip⟩
    exact lt_min (hri ▸ hrk) hiL

/-- Exactly `min k len` storage positions have rank below `k`. -/
lemma count_rank_lt (vals : List ℚ) (k : ℕ) :
    ((List.range vals.length).filter (fun p => decide (rankAt vals p < k))).length =
      min k vals.length := by
  set L := argsort vals with hL
  have hcount : ((List.range vals.length).filter (fun p => decide (rankAt vals p < k))).length =
      List.countP (fun p => decide (rankAt vals p < k)) L := by
    rw [← List.countP_eq_length_filter,
      (argsort_perm vals).countP_eq (fun p => decide (rankAt vals p < k))]
  have hsplit : L.take k ++ L.drop k = L := List.take_append_drop k L
  have htake : List.countP (fun p => decide (rankAt vals p < k)) (L.take k) =
      (L.take k).length := by
    rw [List.countP_eq_length]
    intro a ha
    obtain ⟨j, hj, hja⟩ := List.mem_take_iff_getElem.mp ha
    have hjL : j < L.length := lt_of_lt_of_le hj (min_le_right _ _)
    have : rankAt vals a = j := by
      rw [← show L.get ⟨j, hjL⟩ = a from by simpa using hja]
      exact argsort_get_rank vals j hjL
    exact decide_eq_true (this ▸ lt_of_lt_of_le hj (min_le_left _ _))
  have hdrop : List.countP (fun p => decide (rankAt vals p < k)) (L.drop k) = 0 := by
    rw [List.countP_eq_zero]
    intro a ha
    obtain ⟨⟨j, hj⟩, hja⟩ := List.get_of_mem ha
    have hkjL : k + j < L.length := by
      have := hj
      rw [List.length_drop] at this
      omega
    have hga : L.get ⟨k + j, hkjL⟩ = a := by
      rw [List.get_drop L hkjL]
      exact hja
    have : rankAt vals a = k + j := by
      rw [← hga]
      exact argsort_get_rank vals (k + j) hkjL
    intro hpred
    have := of_decide_eq_true hpred
    omega
  have hlen : (L.take k).length = min k L.length := List.length_take k L
  calc ((List.range vals.length).filter (fun p => decide (rankAt vals p < k))).length
      = List.countP (fun p => decide (rankAt vals p < k)) L := hcount
    _ = List.countP _ (L.take k ++ L.drop k) := by rw [hsplit]
    _ = min k vals.length := by
        rw [List.countP_append, htake, hdrop, hlen, argsort_length, Nat.add_zero]

/-- Every storage position of the row has rank below the row length. -/
lemma rankAt_lt_len (vals : List ℚ) (p : ℕ) (hp : p < vals.length) :
    rankAt vals p < vals.length := by
  obtain ⟨⟨i, hiL⟩, hip⟩ := List.get_of_mem ((mem_argsort vals p).mpr hp)
  have := argsort_get_rank vals i hiL
  rw [hip] at this
  rw [this, ← argsort_length vals]
  exact hiL

/-! ### Row-level behaviour of the pruning pipeline -/

lemma mem_enum_spec {α : Type} {l : List α} {jp : ℕ × α} (h : jp ∈ l.enum) :
    jp.1 < l.length ∧ jp.2 ∈ l := by
  obtain ⟨⟨i, hi⟩, hget⟩ := List.get_of_mem h
  have hlen : l.enum.length = l.length := List.enum_length
  have hi' : i < l.length := hlen ▸ hi
  have : l.enum.get ⟨i, hi⟩ = (i, l.get ⟨i, hi'⟩) := by
    simp [List.getElem_enum]
  rw [this] at hget
  subst hget
  exact ⟨hi', List.get_mem l i hi'⟩

lemma filterIdx_congr (row : SRow) (k1 k2 : ℕ → Bool)
    (h : ∀ j < row.length, k1 j = k2 j) :
    filterIdx row k1 = filterIdx row k2 := by
  unfold filterIdx
  congr 1
  apply List.filter_congr
  intro jp hjp
  exact h jp.1 (mem_enum_spec hjp).1

lemma filterIdx_all (row : SRow) (keep : ℕ → Bool)
    (h : ∀ j < row.length, keep j = true) : filterIdx row keep = row := by
  unfold filterIdx
  rw [List.filter_eq_self.mpr (fun jp hjp => h jp.1 (mem_enum_spec hjp).1),
    List.enum_map_snd]

lemma filterIdx_mem (row : SRow) (keep : ℕ → Bool) :
    ∀ x ∈ filterIdx row keep, x ∈ row := by
  intro x hx
  obtain ⟨jp, hjp, rfl⟩ := List.mem_map.mp hx
  exact (mem_enum_spec (List.mem_filter.mp hjp).1).2

/-- Number of kept entries when keeping the ranks below `m`. -/
lemma filterIdx_rank_length (row : SRow) (m : ℕ) :
    (filterIdx row (fun j => decide (rankAt (row.map Prod.snd) j < m))).length =
      min m row.length := by
  unfold filterIdx
  rw [List.length_map, ← List.countP_eq_length_filter]
  have hmap : List.countP (fun jp => decide (rankAt (row.map Prod.snd) jp.1 < m))
      row.enum =
      List.countP (fun j => decide (rankAt (row.map Prod.snd) j < m))
        (row.enum.map Prod.fst) := by
    rw [List.countP_map]
    rfl
  rw [hmap, List.enum_map_fst, List.countP_eq_length_filter]
  have h := count_rank_lt (row.map Prod.snd) m
  rw [List.length_map] at h
  exact h

/-- Adding the epsilon to every value changes no rank (the shift is
strictly monotone and preserves ties). -/
lemma rankAt_eps (vals : List ℚ) (p : ℕ) (hp : p < vals.length) :
    rankAt (vals.map (fun v => v + eps)) p = rankAt vals p := by
  unfold rankAt
  rw [List.length_map]
  apply congrArg List.length
  apply List.filter_congr
  intro q hq
  rw [List.mem_range] at hq
  apply decide_eq_decide.mpr
  have hget : ∀ r : ℕ, r < vals.length →
      (vals.map (fun v => v + eps)).getD r 0 = vals.getD r 0 + eps := by
    intro r hr
    rw [List.getD_eq_get _ _ (by rwa [List.length_map] : r < (vals.map _).length),
      List.getD_eq_get _ _ hr, List.get_map]
  unfold rankLt
  rw [hget q hq, hget p hp]
  constructor
  · rintro (h | ⟨h, h'⟩)
    · exact Or.inl (by linarith)
    · exact Or.inr ⟨by linarith, h'⟩
  · rintro (h | ⟨h, h'⟩)
    · exact Or.inl (by linarith)
    · exact Or.inr ⟨by rw [h], h'⟩

/-- Pruning an epsilon-shifted row, eliminating the zeroed entries and
subtracting the epsilon back keeps exactly the entries of rank below `m`,
in storage order. -/
lemma elim_pruneRow (row : SRow) (m : ℕ) (hpos : ∀ p ∈ row, 0 ≤ p.2) :
    ((pruneRow m (epsRow row)).filter (fun p => decide (¬ p.2 = 0))).map
        (fun p => (p.1, p.2 - eps)) =
      filterIdx row (fun j => decide (rankAt (row.map Prod.snd) j < m)) := by
  have heps_pos : ∀ p ∈ epsRow row, 0 < p.2 := by
    intro p hp
    obtain ⟨q, hq, rfl⟩ := List.mem_map.mp hp
    show 0 < q.2 + eps
    have h0 : (0 : ℚ) < eps := eps_pos
    linarith [hpos q hq]
  -- step 1: pruning then eliminating zeros keeps the entries at kept positions
  have h1 : (pruneRow m (epsRow row)).filter (fun p => decide (¬ p.2 = 0)) =
      filterIdx (epsRow row)
        (fun j => decide (j ∈ (argsort ((epsRow row).map Prod.snd)).take m)) := by
    unfold pruneRow filterIdx
    rw [List.mapIdx_eq_enum_map, List.filter_map]
    have hflt : List.filter
          ((fun p => decide (¬ p.2 = 0)) ∘ Function.uncurry (fun j p =>
            if j ∈ (argsort ((epsRow row).map Prod.snd)).take m then p else (p.1, 0)))
          (epsRow row).enum =
        List.filter
          (fun jp => decide (jp.1 ∈ (argsort ((epsRow row).map Prod.snd)).take m))
          (epsRow row).enum := by
      apply List.filter_congr
      intro jp hjp
      obtain ⟨j, p⟩ := jp
      have hval := heps_pos _ (mem_enum_spec hjp).2
      simp only [Function.comp_apply, Function.uncurry_apply_pair]
      by_cases hj : j ∈ (argsort ((epsRow row).map Prod.snd)).take m
      · simp only [if_pos hj]
        apply decide_eq_decide.mpr
        exact ⟨fun _ => hj, fun _ => ne_of_gt hval⟩
      · simp only [if_neg hj]
        apply decide_eq_decide.mpr
        constructor
        · intro h; exact absurd trivial h
        · intro h; exact absurd h hj
    rw [hflt]
    apply List.map_congr_left
    intro jp hjp
    obtain ⟨j, p⟩ := jp
    have hj : j ∈ (argsort ((epsRow row).map Prod.snd)).take m :=
      of_decide_eq_true (List.mem_filter.mp hjp).2
    simp only [Function.uncurry_apply_pair]
    rw [if_pos hj]
  rw [h1]
  -- step 2: subtracting the epsilon turns the kept eps-shifted entries into
  -- the kept original entries
  have h2 : (filterIdx (epsRow row)
        (fun j => decide (j ∈ (argsort ((epsRow row).map Prod.snd)).take m))).map
      (fun p => (p.1, p.2 - eps)) =
      filterIdx row
        (fun j => decide (j ∈ (argsort ((epsRow row).map Prod.snd)).take m)) := by
    unfold filterIdx epsRow
    rw [List.enum_map, List.filter_map, List.map_map, List.map_map]
    apply List.map_congr_left
    intro jp _
    show ((jp.2.1, jp.2.2 + eps).1, (jp.2.1, jp.2.2 + eps).2 - eps) = jp.2
    rw [← Prod.mk.eta (p := jp.2)]
    norm_num
  rw [h2]
  -- step 3: membership in the first m argsort positions is rank below m
  apply filterIdx_congr
  intro j hj
  apply decide_eq_decide.mpr
  have hevals : (epsRow row).map Prod.snd = (row.map Prod.snd).map (fun v => v + eps) := by
    unfold epsRow
    rw [List.map_map, List.map_map]
    rfl
  have hlen : ((epsRow row).map Prod.snd).length = row.length := by
    rw [hevals, List.length_map, List.length_map]
  have hjlen : j < (row.map Prod.snd).length := by rwa [List.length_map]
  rw [mem_take_argsort, hlen, hevals, rankAt_eps (row.map Prod.snd) j hjlen]
  constructor
  · rintro ⟨_, h⟩; exact h
  · intro h; exact ⟨hj, h⟩

/-- With no pruning, the epsilon round-trip and the zero elimination leave
a nonnegative row unchanged. -/
lemma elim_epsRow (row : SRow) (hpos : ∀ p ∈ row, 0 ≤ p.2) :
    ((epsRow row).filter (fun p => decide (¬ p.2 = 0))).map
        (fun p => (p.1, p.2 - eps)) = row := by
  have hall : ∀ p ∈ epsRow row, decide (¬ p.2 = 0) = true := by
    intro p hp
    obtain ⟨q, hq, rfl⟩ := List.mem_map.mp hp
    have h0 : (0 : ℚ) < eps := eps_pos
    have : (0 : ℚ) < q.2 + eps := by linarith [hpos q hq]
    exact decide_eq_true (ne_of_gt this)
  rw [List.filter_eq_self.mpr hall]
  unfold epsRow
  rw [List.map_map]
  have : ((fun p : ℕ × ℚ => (p.1, p.2 - eps)) ∘ fun p : ℕ × ℚ => (p.1, p.2 + eps)) =
      fun p : ℕ × ℚ => p := by
    funext p
    show (p.1, p.2 + eps - eps) = p
    rw [← Prod.mk.eta (p := p)]
    norm_num
  rw [this, List.map_id']

/-! ### Matrix-level behaviour of get_indices -/

lemma nat_min?_eq_some_iff {a : ℕ} {xs : List ℕ} :
    xs.min? = some a ↔ a ∈ xs ∧ ∀ b ∈ xs, a ≤ b :=
  List.min?_eq_some_iff Nat.le_refl (fun a b => min_choice a b)
    (fun _ _ _ => le_min_iff)

lemma min?_uniform (l : List ℕ) (d : ℕ) (hne : l ≠ []) (h : ∀ x ∈ l, x = d) :
    l.min? = some d := by
  apply nat_min?_eq_some_iff.mpr
  refine ⟨?_, fun b hb => (h b hb) ▸ le_refl d⟩
  match l, hne with
  | x :: xs, _ =>
    have := h x (List.mem_cons_self x xs)
    exact this ▸ List.mem_cons_self x xs

lemma nCounts_addEps (dist : SMat) (hpos : ∀ r ∈ dist, ∀ p ∈ r, 0 ≤ p.2) :
    nCounts (addEps dist) = dist.map (fun r => r.length) := by
  unfold nCounts addEps
  rw [List.map_map]
  apply List.map_congr_left
  intro r hr
  have hall : ∀ p ∈ epsRow r, decide (0 < p.2) = true := by
    intro p hp
    obtain ⟨q, hq, rfl⟩ := List.mem_map.mp hp
    have h0 : (0 : ℚ) < eps := eps_pos
    exact decide_eq_true (show (0 : ℚ) < q.2 + eps by linarith [hpos r hr q hq])
  show ((epsRow r).filter (fun p => decide (0 < p.2))).length = r.length
  rw [List.filter_eq_self.mpr hall]
  unfold epsRow
  rw [List.length_map]

/-- What the pruned matrix of `get_indices` is, for nonnegative stored
distances: every row keeps exactly its entries of rank below the effective
neighbor count, in storage order. -/
lemma get_indices_D_eq (dist : SMat) (kOpt : Option ℕ) (cmin : ℕ)
    (hpos : ∀ r ∈ dist, ∀ p ∈ r, 0 ≤ p.2)
    (hmin : (dist.map (fun r => r.length)).min? = some cmin)
    (m : ℕ)
    (hm : m = match kOpt with | none => cmin | some k => min cmin k) :
    get_indices_D dist kOpt = some (dist.map (fun row =>
      filterIdx row (fun j => decide (rankAt (row.map Prod.snd) j < m)))) := by
  have hrow : ∀ r ∈ dist,
      ((if m < r.length then pruneRow m (epsRow r) else epsRow r).filter
        (fun p => decide (¬ p.2 = 0))).map (fun p => (p.1, p.2 - eps)) =
      filterIdx r (fun j => decide (rankAt (r.map Prod.snd) j < m)) := by
    intro r hr
    by_cases hmr : m < r.length
    · rw [if_pos hmr]
      exact elim_pruneRow r m (hpos r hr)
    · rw [if_neg hmr]
      rw [elim_epsRow r (hpos r hr)]
      symm
      apply filterIdx_all
      intro j hj
      apply decide_eq_true
      have hlt := rankAt_lt_len (r.map Prod.snd) j (by rwa [List.length_map])
      rw [List.length_map] at hlt
      omega
  have hpipe : subEps (elimZeros (pruneAll (addEps dist) m)) =
      dist.map (fun row =>
        filterIdx row (fun j => decide (rankAt (row.map Prod.snd) j < m))) := by
    unfold pruneAll
    rw [nCounts_addEps dist hpos]
    unfold addEps
    rw [List.zipWith_map (fun r c => if m < c then pruneRow m r else r)
      epsRow (fun r => r.length) dist dist, List.zipWith_same]
    unfold elimZeros subEps
    rw [List.map_map, List.map_map]
    exact List.map_congr_left hrow
  unfold get_indices_D
  simp only [nCounts_addEps dist hpos, hmin]
  cases kOpt with
  | none =>
    subst hm
    exact congrArg some hpipe
  | some k =>
    subst hm
    exact congrArg some hpipe

/-! ### The argsort tie order is not guaranteed by numpy

The pipeline above instantiates `dat[n0:n1].argsort()` with the stable
sort `argsort`.  numpy's default `kind='quicksort'` (introsort), however,
is documented as not stable: it insertion-sorts only segments below a
small cutoff, and on longer segments its partitioning reorders tied
values.  All the documentation guarantees is a permutation of the
segment's positions along which the values are non-decreasing.  The
definitions below therefore take the per-row argsort outcome as an
explicit parameter constrained by exactly that guarantee, so tie-order
sensitive statements quantify over every outcome numpy may produce. -/

/-- An admissible outcome of `dat[n0:n1].argsort()`: a permutation of the
segment's positions along which the values are non-decreasing.  This is
all numpy documents for the default non-stable sort; the order of tied
values is unspecified. -/
def IsSortPerm (vals : List ℚ) (perm : List ℕ) : Prop :=
  perm.Perm (List.range vals.length) ∧
  perm.Pairwise (fun p q => vals.getD p 0 ≤ vals.getD q 0)

instance (vals : List ℚ) (perm : List ℕ) : Decidable (IsSortPerm vals perm) := by
  unfold IsSortPerm
  infer_instance

/-- The loop body `dat[rm_idx] = 0` for one row with the kept positions
given explicitly: every position outside `kept` is zeroed. -/
def pruneRowWith (kept : List ℕ) (row : SRow) : SRow :=
  row.mapIdx (fun j p => if j ∈ kept then p else (p.1, 0))

/-- The pruned matrix of `get_indices` with the per-row argsort outcomes
supplied as `perms` (one permutation per row): the source's
`dat[n0:n1].argsort()[n_neighbors:]` zeroes every position outside the
first `n_neighbors` of the returned order.  `get_indices_D` is the
instance where every row's outcome is the stable `argsort`. -/
def get_indices_D_perm (dist : SMat) (n_neighbors : Option ℕ)
    (perms : List (List ℕ)) : Option SMat :=
  let D := addEps dist
  match (nCounts D).min? with
  | none => none
  | some cmin =>
    let m := match n_neighbors with
      | none => cmin
      | some k => min cmin k
    some (subEps (elimZeros (List.zipWith
      (fun rc perm => if m < rc.2 then pruneRowWith (perm.take m) rc.1 else rc.1)
      (D.zip (nCounts D)) perms)))

lemma epsRow_vals_length (row : SRow) :
    ((epsRow row).map Prod.snd).length = row.length := by
  unfold epsRow
  rw [List.length_map, List.length_map]

lemma epsRow_vals_getD (row : SRow) (r : ℕ) (hr : r < row.length) :
    ((epsRow row).map Prod.snd).getD r 0 = (row.map Prod.snd).getD r 0 + eps := by
  have hevals : (epsRow row).map Prod.snd = (row.map Prod.snd).map (fun v => v + eps) := by
    unfold epsRow
    rw [List.map_map, List.map_map]
    rfl
  rw [hevals,
    List.getD_eq_get _ _ (by rw [List.length_map, List.length_map]; exact hr),
    List.getD_eq_get _ _ (by rw [List.length_map]; exact hr), List.get_map]

/-- Pruning an epsilon-shifted row to an arbitrary list of kept positions,
eliminating the zeroed entries and subtracting the epsilon back keeps
exactly the entries at the kept positions, in storage order. -/
lemma elim_pruneRowWith (row : SRow) (kept : List ℕ)
    (hpos : ∀ p ∈ row, 0 ≤ p.2) :
    ((pruneRowWith kept (epsRow row)).filter (fun p => decide (¬ p.2 = 0))).map
        (fun p => (p.1, p.2 - eps)) =
      filterIdx row (fun j => decide (j ∈ kept)) := by
  have heps_pos : ∀ p ∈ epsRow row, 0 < p.2 := by
    intro p hp
    obtain ⟨q, hq, rfl⟩ := List.mem_map.mp hp
    show 0 < q.2 + eps
    have h0 : (0 : ℚ) < eps := eps_pos
    linarith [hpos q hq]
  have h1 : (pruneRowWith kept (epsRow row)).filter (fun p => decide (¬ p.2 = 0)) =
      filterIdx (epsRow row) (fun j => decide (j ∈ kept)) := by
    unfold pruneRowWith filterIdx
    rw [List.mapIdx_eq_enum_map, List.filter_map]
    have hflt : List.filter
          ((fun p => decide (¬ p.2 = 0)) ∘ Function.uncurry (fun j p =>
            if j ∈ kept then p else (p.1, 0)))
          (epsRow row).enum =
        List.filter (fun jp => decide (jp.1 ∈ kept)) (epsRow row).enum := by
      apply List.filter_congr
      intro jp hjp
      obtain ⟨j, p⟩ := jp
      have hval := heps_pos _ (mem_enum_spec hjp).2
      simp only [Function.comp_apply, Function.uncurry_apply_pair]
      by_cases hj : j ∈ kept
      · simp only [if_pos hj]
        apply decide_eq_decide.mpr
        exact ⟨fun _ => hj, fun _ => ne_of_gt hval⟩
      · simp only [if_neg hj]
        apply decide_eq_decide.mpr
        constructor
        · intro h; exact absurd trivial h
        · intro h; exact absurd h hj
    rw [hflt]
    apply List.map_congr_left
    intro jp hjp
    obtain ⟨j, p⟩ := jp
    have hj : j ∈ kept := of_decide_eq_true (List.mem_filter.mp hjp).2
    simp only [Function.uncurry_apply_pair]
    rw [if_pos hj]
  rw [h1]
  unfold filterIdx epsRow
  rw [List.enum_map, List.filter_map, List.map_map, List.map_map]
  apply List.map_congr_left
  intro jp _
  show ((jp.2.1, jp.2.2 + eps).1, (jp.2.1, jp.2.2 + eps).2 - eps) = jp.2
  rw [← Prod.mk.eta (p := jp.2)]
  norm_num

/-- Number of kept entries when keeping the positions of a duplicate-free
in-range list. -/
lemma filterIdx_mem_length (row : SRow) (S : List ℕ) (hnd : S.Nodup)
    (hlt : ∀ p ∈ S, p < row.length) :
    (filterIdx row (fun j => decide (j ∈ S))).length = S.length := by
  unfold filterIdx
  rw [List.length_map, ← List.countP_eq_length_filter]
  have hmap : List.countP (fun jp => decide (jp.1 ∈ S)) row.enum =
      List.countP (fun j => decide (j ∈ S)) (row.enum.map Prod.fst) := by
    rw [List.countP_map]
    rfl
  rw [hmap, List.enum_map_fst, List.countP_eq_length_filter]
  have hperm : ((List.range row.length).filter (fun j => decide (j ∈ S))).Perm S := by
    apply List.perm_of_nodup_nodup_toFinset_eq
    · exact (List.nodup_range _).filter _
    · exact hnd
    · ext x
      simp only [List.mem_toFinset, List.mem_filter, List.mem_range,
        decide_eq_true_eq]
      exact ⟨fun h => h.2, fun h => ⟨hlt x h, h⟩⟩
  exact hperm.length_eq

/-- Along any admissible argsort outcome, every entry among the first `k`
positions has an original distance at most that of every entry outside
them. -/
lemma sortPerm_take_le (row : SRow) (perm : List ℕ) (k : ℕ)
    (h : IsSortPerm ((epsRow row).map Prod.snd) perm) :
    ∀ p ∈ perm.take k, ∀ q, q < row.length → q ∉ perm.take k →
      (row.map Prod.snd).getD p 0 ≤ (row.map Prod.snd).getD q 0 := by
  obtain ⟨hP, hPw⟩ := h
  have hlen := epsRow_vals_length row
  intro p hp q hq hqn
  have hqperm : q ∈ perm := by
    rw [hP.mem_iff, List.mem_range, hlen]
    exact hq
  have hqsplit : q ∈ perm.take k ++ perm.drop k := by
    rw [List.take_append_drop]
    exact hqperm
  have hqdrop : q ∈ perm.drop k := by
    rcases List.mem_append.mp hqsplit with h | h
    · exact absurd h hqn
    · exact h
  obtain ⟨i, hik, hip⟩ := List.mem_take_iff_getElem.mp hp
  obtain ⟨⟨j, hj⟩, hjq⟩ := List.get_of_mem hqdrop
  have hkj : k + j < perm.length := by
    have := hj
    rw [List.length_drop] at this
    omega
  have hgq : perm.get ⟨k + j, hkj⟩ = q := by
    rw [List.get_drop perm hkj]
    exact hjq
  have hilt : i < perm.length := lt_of_lt_of_le hik (min_le_right _ _)
  have hij : (⟨i, hilt⟩ : Fin perm.length) < ⟨k + j, hkj⟩ := by
    show i < k + j
    have hik' : i < k := lt_of_lt_of_le hik (min_le_left _ _)
    omega
  have hrel := List.pairwise_iff_get.mp hPw ⟨i, hilt⟩ ⟨k + j, hkj⟩ hij
  rw [hgq] at hrel
  have hgp : perm.get ⟨i, hilt⟩ = p := by
    simpa using hip
  rw [hgp] at hrel
  have hplt : p < row.length := by
    have hpm : p ∈ perm := List.mem_of_mem_take hp
    rw [hP.mem_iff, List.mem_range, hlen] at hpm
    exact hpm
  rw [epsRow_vals_getD row p hplt, epsRow_vals_getD row q hq] at hrel
  linarith

/-- What the pruned matrix is under explicitly supplied argsort outcomes:
every row with more than the effective count of stored entries keeps the
entries at the first `m` positions of its supplied order. -/
lemma get_indices_D_perm_eq (dist : SMat) (kOpt : Option ℕ) (cmin : ℕ)
    (perms : List (List ℕ))
    (hpos : ∀ r ∈ dist, ∀ p ∈ r, 0 ≤ p.2)
    (hmin : (dist.map (fun r => r.length)).min? = some cmin)
    (m : ℕ)
    (hm : m = match kOpt with | none => cmin | some k => min cmin k) :
    get_indices_D_perm dist kOpt perms = some ((dist.zip perms).map (fun rp =>
      if m < rp.1.length then
        filterIdx rp.1 (fun j => decide (j ∈ rp.2.take m))
      else rp.1)) := by
  have hscr : (nCounts (addEps dist)).min? = some cmin := by
    rw [nCounts_addEps dist hpos]
    exact hmin
  have hbody : subEps (elimZeros (List.zipWith
      (fun rc perm => if m < rc.2 then pruneRowWith (perm.take m) rc.1 else rc.1)
      ((addEps dist).zip (nCounts (addEps dist))) perms)) =
      (dist.zip perms).map (fun rp =>
        if m < rp.1.length then
          filterIdx rp.1 (fun j => decide (j ∈ rp.2.take m))
        else rp.1) := by
    unfold subEps elimZeros
    have hlen_add : (addEps dist).length = dist.length := by
      unfold addEps
      rw [List.length_map]
    have hlen_cnt : (nCounts (addEps dist)).length = (addEps dist).length := by
      unfold nCounts
      rw [List.length_map]
    apply List.ext_getElem
    · simp only [List.length_map, List.length_zipWith, List.length_zip]
      rw [hlen_cnt, hlen_add, min_self]
    · intro n h1 h2
      have hdl : n < dist.length := by
        simp only [List.length_map, List.length_zipWith, List.length_zip] at h1
        rw [hlen_cnt, hlen_add, min_self] at h1
        exact lt_of_lt_of_le h1 (min_le_left _ _)
      have hpl : n < perms.length := by
        simp only [List.length_map, List.length_zipWith, List.length_zip] at h1
        rw [hlen_cnt, hlen_add, min_self] at h1
        exact lt_of_lt_of_le h1 (min_le_right _ _)
      have h3 : nCounts (addEps dist) = dist.map (fun r => r.length) :=
        nCounts_addEps dist hpos
      simp only [List.getElem_map, List.getElem_zipWith, List.getElem_zip]
      simp only [h3, List.getElem_map]
      simp only [addEps, List.getElem_map]
      have hmem : dist[n] ∈ dist := List.getElem_mem hdl
      by_cases hmn : m < dist[n].length
      · rw [if_pos hmn, if_pos hmn]
        exact elim_pruneRowWith dist[n] (perms[n].take m) (hpos _ hmem)
      · rw [if_neg hmn, if_neg hmn]
        exact elim_epsRow dist[n] (hpos _ hmem)
  unfold get_indices_D_perm
  simp only [hscr]
  cases kOpt with
  | none =>
    subst hm
    exact congrArg some hbody
  | some k =>
    subst hm
    exact congrArg some hbody

/-- C3 as stated is false on the code: numpy's default argsort
(`kind='quicksort'`, introsort) is documented as not stable — only
segments below its insertion-sort cutoff (around 16 elements) are sorted
stably — so "ties broken in favor of earlier storage order" is not
guaranteed.  Concretely: one row of 20 equal distances pruned to one
neighbor.  The order beginning `1, 0, …` is an admissible argsort outcome
of the 20 tied values (first conjunct), and under it `get_indices` keeps
storage position 1, not the claim's selection of rank below 1 (storage
position 0, second conjunct). -/
theorem get_indices_tie_break_not_storage_order :
    IsSortPerm ((epsRow ((List.range 20).map (fun i => (i, (1 : ℚ))))).map Prod.snd)
      (1 :: 0 :: List.range' 2 18) ∧
    get_indices_D_perm [(List.range 20).map (fun i => (i, (1 : ℚ)))] (some 1)
        [1 :: 0 :: List.range' 2 18] ≠
      some ([(List.range 20).map (fun i => (i, (1 : ℚ)))].map (fun row =>
        filterIdx row (fun j => decide (rankAt (row.map Prod.snd) j < 1)))) := by
  constructor
  · decide
  · decide

/-- C3 amended: for every admissible outcome of the per-row argsort (any
permutation of the row's positions along which the shifted values are
non-decreasing — all numpy documents for its default, non-stable sort),
pruning a nonnegative uniform-degree-`d` distance matrix to `k ≤ d`
neighbors keeps exactly `k` stored entries in every row, namely the
entries at the first `k` positions of that row's outcome (in storage
order), and these are `k` smallest-valued entries of the row: every kept
entry's original distance is at most every removed entry's original
distance.  Which entry is kept among tied distances depends on the sort's
tie order. -/
theorem get_indices_keeps_k_smallest_values (dist : SMat) (d k : ℕ)
    (perms : List (List ℕ))
    (hne : dist ≠ []) (hd : ∀ r ∈ dist, r.length = d) (hk : k ≤ d)
    (hval : ∀ r ∈ dist, ∀ p ∈ r, 0 ≤ p.2)
    (hplen : perms.length = dist.length)
    (hperm : ∀ rp ∈ dist.zip perms, IsSortPerm ((epsRow rp.1).map Prod.snd) rp.2) :
    get_indices_D_perm dist (some k) perms =
      some ((dist.zip perms).map (fun rp =>
        filterIdx rp.1 (fun j => decide (j ∈ rp.2.take k)))) ∧
    (dist.zip perms).length = dist.length ∧
    ∀ rp ∈ dist.zip perms,
      (filterIdx rp.1 (fun j => decide (j ∈ rp.2.take k))).length = k ∧
      ∀ p ∈ rp.2.take k, ∀ q, q < rp.1.length → q ∉ rp.2.take k →
        (rp.1.map Prod.snd).getD p 0 ≤ (rp.1.map Prod.snd).getD q 0 := by
  have hmapne : dist.map (fun r => r.length) ≠ [] := by
    intro h
    exact hne (List.map_eq_nil.mp h)
  have hmin : (dist.map (fun r => r.length)).min? = some d := by
    apply min?_uniform _ _ hmapne
    intro x hx
    obtain ⟨r, hr, rfl⟩ := List.mem_map.mp hx
    exact hd r hr
  have hrowfacts : ∀ rp ∈ dist.zip perms,
      rp.1.length = d ∧ rp.2.length = d ∧ rp.2.Nodup ∧
      (∀ j, j ∈ rp.2 ↔ j < d) := by
    intro rp hrp
    obtain ⟨hrp1, _⟩ := List.mem_zip hrp
    obtain ⟨hP, _⟩ := hperm rp hrp
    have hlen1 : rp.1.length = d := hd rp.1 hrp1
    have hlen2 : rp.2.length = d := by
      rw [hP.length_eq, List.length_range, epsRow_vals_length, hlen1]
    have hnd : rp.2.Nodup := hP.nodup_iff.mpr (List.nodup_range _)
    refine ⟨hlen1, hlen2, hnd, fun j => ?_⟩
    rw [hP.mem_iff, List.mem_range, epsRow_vals_length, hlen1]
  have heq := get_indices_D_perm_eq dist (some k) d perms hval hmin k
    (min_eq_right hk).symm
  have hdrop_if : (dist.zip perms).map (fun rp =>
      if k < rp.1.length then
        filterIdx rp.1 (fun j => decide (j ∈ rp.2.take k))
      else rp.1) =
      (dist.zip perms).map (fun rp =>
        filterIdx rp.1 (fun j => decide (j ∈ rp.2.take k))) := by
    apply List.map_congr_left
    intro rp hrp
    obtain ⟨hlen1, hlen2, _, hmem⟩ := hrowfacts rp hrp
    by_cases hkd : k < rp.1.length
    · rw [if_pos hkd]
    · rw [if_neg hkd]
      have hkd' : k = d := by
        rw [hlen1] at hkd
        omega
      have htake : rp.2.take k = rp.2 := by
        apply List.take_of_length_le
        rw [hlen2, hkd']
      symm
      apply filterIdx_all
      intro j hj
      apply decide_eq_true
      rw [htake, hmem]
      rw [hlen1] at hj
      exact hj
  refine ⟨by rw [heq, hdrop_if], ?_, ?_⟩
  · rw [List.length_zip, hplen, min_self]
  · intro rp hrp
    obtain ⟨hlen1, hlen2, hnd, hmem⟩ := hrowfacts rp hrp
    constructor
    · rw [filterIdx_mem_length rp.1 (rp.2.take k)
        ((List.take_sublist k rp.2).nodup hnd)
        (fun p hp => by
          rw [hlen1, ← hmem p]
          exact List.mem_of_mem_take hp)]
      rw [List.length_take, hlen2]
      exact min_eq_left hk
    · exact sortPerm_take_le rp.1 rp.2 k (hperm rp hrp)

/-- Witness for the amended C3: two cells with stored distances
`[1, 3, 2, 4]` in storage order, pruned to 2 neighbors under the
admissible sort order `[0, 2, 1, 3]` of each row: positions 0 and 2
(values 1 and 2) are kept, each row keeps exactly 2 entries, and the kept
value at position 2 is at most the removed value at position 1. -/
theorem get_indices_keeps_k_smallest_values_witness :
    get_indices_D_perm
        [[(0, 1), (1, 3), (2, 2), (3, 4)],
         [(0, 1), (1, 3), (2, 2), (3, 4)]] (some 2) [[0, 2, 1, 3], [0, 2, 1, 3]] =
      some (([[(0, 1), (1, 3), (2, 2), (3, 4)],
         [(0, 1), (1, 3), (2, 2), (3, 4)]].zip [[0, 2, 1, 3], [0, 2, 1, 3]]).map (fun rp =>
        filterIdx rp.1 (fun j => decide (j ∈ rp.2.take 2)))) ∧
    (filterIdx [((0 : ℕ), (1 : ℚ)), (1, 3), (2, 2), (3, 4)]
      (fun j => decide (j ∈ ([0, 2, 1, 3] : List ℕ).take 2))).length = 2 ∧
    ([((0 : ℕ), (1 : ℚ)), (1, 3), (2, 2), (3, 4)].map Prod.snd).getD 2 0 ≤
      ([((0 : ℕ), (1 : ℚ)), (1, 3), (2, 2), (3, 4)].map Prod.snd).getD 1 0 :=
  ⟨(get_indices_keeps_k_smallest_values
      [[(0, 1), (1, 3), (2, 2), (3, 4)],
       [(0, 1), (1, 3), (2, 2), (3, 4)]] 4 2 [[0, 2, 1, 3], [0, 2, 1, 3]]
      (by decide) (by decide) (by decide) (by decide) (by decide) (by decide)).1,
   ((get_indices_keeps_k_smallest_values
      [[(0, 1), (1, 3), (2, 2), (3, 4)],
       [(0, 1), (1, 3), (2, 2), (3, 4)]] 4 2 [[0, 2, 1, 3], [0, 2, 1, 3]]
      (by decide) (by decide) (by decide) (by decide) (by decide) (by decide)).2.2
     ([((0 : ℕ), (1 : ℚ)), (1, 3), (2, 2), (3, 4)], [0, 2, 1, 3]) (by decide)).1,
   ((get_indices_keeps_k_smallest_values
      [[(0, 1), (1, 3), (2, 2), (3, 4)],
       [(0, 1), (1, 3), (2, 2), (3, 4)]] 4 2 [[0, 2, 1, 3], [0, 2, 1, 3]]
      (by decide) (by decide) (by decide) (by decide) (by decide) (by decide)).2.2
     ([((0 : ℕ), (1 : ℚ)), (1, 3), (2, 2), (3, 4)], [0, 2, 1, 3]) (by decide)).2
     2 (by decide) 1 (by decide) (by decide)⟩

/-- C7: pruning is idempotent — applying `get_indices` with the same
neighbor count to its own pruned output returns that output unchanged
(nonnegative stored distances). -/
theorem get_indices_idempotent (dist : SMat) (k : ℕ)
    (hne : dist ≠ []) (hval : ∀ r ∈ dist, ∀ p ∈ r, 0 ≤ p.2)
    (D2 : SMat) (hD2 : get_indices_D dist (some k) = some D2) :
    get_indices_D D2 (some k) = some D2 := by
  have hmapne : dist.map (fun r => r.length) ≠ [] := by
    intro h
    exact hne (List.map_eq_nil.mp h)
  obtain ⟨cmin, hmin⟩ : ∃ c, (dist.map (fun r => r.length)).min? = some c := by
    match dist, hne with
    | r :: rs, _ => exact ⟨_, rfl⟩
  have hcmin_le : ∀ r ∈ dist, cmin ≤ r.length := by
    intro r hr
    exact (nat_min?_eq_some_iff.mp hmin).2 r.length
      (List.mem_map.mpr ⟨r, hr, rfl⟩)
  have heq := get_indices_D_eq dist (some k) cmin hval hmin (min cmin k) rfl
  rw [heq] at hD2
  have hD2eq : D2 = dist.map (fun row =>
      filterIdx row (fun j => decide (rankAt (row.map Prod.snd) j < min cmin k))) :=
    (Option.some.injEq _ _ ▸ hD2).symm
  have hD2len : ∀ r2 ∈ D2, r2.length = min cmin k := by
    intro r2 hr2
    rw [hD2eq] at hr2
    obtain ⟨row, hrow, rfl⟩ := List.mem_map.mp hr2
    rw [filterIdx_rank_length]
    exact min_eq_left (le_trans (min_le_left cmin k) (hcmin_le row hrow))
  have hD2val : ∀ r2 ∈ D2, ∀ p ∈ r2, 0 ≤ p.2 := by
    intro r2 hr2 p hp
    rw [hD2eq] at hr2
    obtain ⟨row, hrow, rfl⟩ := List.mem_map.mp hr2
    exact hval row hrow p (filterIdx_mem row _ p hp)
  have hD2ne : D2 ≠ [] := by
    rw [hD2eq]
    intro h
    exact hne (List.map_eq_nil.mp h)
  have hmin2 : (D2.map (fun r => r.length)).min? = some (min cmin k) := by
    apply min?_uniform
    · intro h
      exact hD2ne (List.map_eq_nil.mp h)
    · intro x hx
      obtain ⟨r2, hr2, rfl⟩ := List.mem_map.mp hx
      exact hD2len r2 hr2
  have heq2 := get_indices_D_eq D2 (some k) (min cmin k) hD2val hmin2 (min cmin k)
    (min_eq_left (min_le_right cmin k)).symm
  rw [heq2]
  congr 1
  have hid : ∀ r2 ∈ D2,
      filterIdx r2 (fun j => decide (rankAt (r2.map Prod.snd) j < min cmin k)) = r2 := by
    intro r2 hr2
    apply filterIdx_all
    intro j hj
    apply decide_eq_true
    have hlt := rankAt_lt_len (r2.map Prod.snd) j (by rwa [List.length_map])
    rw [List.length_map, hD2len r2 hr2] at hlt
    exact hlt
  calc D2.map (fun r2 =>
        filterIdx r2 (fun j => decide (rankAt (r2.map Prod.snd) j < min cmin k)))
      = D2.map (fun r2 => r2) := by
        apply List.map_congr_left
        intro r2 hr2
        exact hid r2 hr2
    _ = D2 := List.map_id' D2

/-- Witness for C7: a one-row matrix with distances `[1, 3]` pruned to
one neighbor gives `[[(0, 1)]]`, and pruning that again to one neighbor
returns it unchanged. -/
theorem get_indices_idempotent_witness :
    get_indices_D [[(0, 1)]] (some 1) = some [[(0, 1)]] :=
  get_indices_idempotent [[(0, 1), (1, 3)]] 1 (by decide) (by decide)
    [[(0, 1)]] (by decide)

/-- The two Python variables of `get_indices`: the argument `dist` and the
working copy `D`. -/
structure GIState where
  dist : SMat
  D : SMat

/-- The body of `get_indices` as explicit state passing: `D = dist.copy()` makes `D` a
value copy, and every subsequent in-place statement (`D.data += 1e-6`, the
pruning loop, `D.eliminate_zeros()`, `D.data -= 1e-6`) rewrites only the
`D` field.  Returns the final value of `dist` together with the result. -/
def get_indices_run (dist : SMat) (n_neighbors : Option ℕ) : SMat × Option SMat :=
  let s : GIState := { dist := dist, D := dist }
  let s : GIState := { s with D := addEps s.D }
  match (nCounts s.D).min? with
  | none => (s.dist, none)
  | some cmin =>
    let m := match n_neighbors with
      | none => cmin
      | some k => min cmin k
    let s : GIState := { s with D := pruneAll s.D m }
    let s : GIState := { s with D := elimZeros s.D }
    let s : GIState := { s with D := subEps s.D }
    (s.dist, some s.D)

/-- C10: `get_indices` never modifies its input matrix — the pruning is
performed on and returned as a copy, and the `dist` variable is unchanged
by the whole body (which also computes exactly the pruned matrix
`get_indices_D`). -/
theorem get_indices_preserves_input (dist : SMat) (n_neighbors : Option ℕ) :
    (get_indices_run dist n_neighbors).1 = dist ∧
    (get_indices_run dist n_neighbors).2 = get_indices_D dist n_neighbors := by
  unfold get_indices_run get_indices_D
  cases h : (nCounts (addEps dist)).min? <;> simp [h]

end Scvelo
